import Mathlib

/-!
Shallow embedding of the response-resolution engine of caproven/mock-server
(`internal/rest/rest.go` and `internal/config/config.go`), together with
theorems checking the natural-language specification against it.

Modelling conventions:
* Go `int` and `time.Duration` become `Int`; `[]byte` becomes `List Nat`;
  Go's `map[string]string` becomes an association list `List (String × String)`
  (iteration order is irrelevant to every property proved here).
* Fallible constructors (`(T, error)` returns) become `Except String T`.
* The injected `numberGenerator` of the weighted resolver is modelled by
  passing the drawn value directly to `NextResponse`; a Go `panic` becomes
  the `none` case of an `Option` result.
* The sequenced resolver's `NextResponse` mutates the receiver under a mutex;
  it is modelled as a state-passing function `SequencedResponse →
  Option (Response × SequencedResponse)` whose whole body is the atomic
  critical section guarded by `s.mu` in the source.
-/

namespace MockServer

/-- Go struct `rest.Response` (the option-built one with private fields). -/
structure Response where
  headers : List (String × String)
  body : List Nat
  statusCode : Int
  delay : Int
  deriving Repr, DecidableEq

/-- The Go zero value `Response{}` used by `NewResponse`. -/
def zeroResponse : Response := ⟨[], [], 0, 0⟩

/-- Go type `rest.ResponseOption`: a fallible mutation of a response. -/
def ResponseOption := Response → Except String Response

/-- Go `rest.WithResponseHeaders`. -/
def WithResponseHeaders (headers : List (String × String)) : ResponseOption :=
  fun r => .ok { r with headers := headers }

/-- Go `rest.WithResponseBody`. -/
def WithResponseBody (body : List Nat) : ResponseOption :=
  fun r => .ok { r with body := body }

/-- Go `rest.WithResponseStatus`: rejects status codes outside [100, 599]. -/
def WithResponseStatus (statusCode : Int) : ResponseOption :=
  fun r =>
    if statusCode < 100 ∨ statusCode > 599 then
      .error "invalid status code"
    else
      .ok { r with statusCode := statusCode }

/-- Go `rest.WithResponseDelay`: rejects negative delays. -/
def WithResponseDelay (delay : Int) : ResponseOption :=
  fun r =>
    if delay < 0 then
      .error "delay cannot be negative"
    else
      .ok { r with delay := delay }

/-- The option-application loop inside `rest.NewResponse`. -/
def applyOptions : List ResponseOption → Response → Except String Response
  | [], r => .ok r
  | opt :: opts, r =>
    match opt r with
    | .error e => .error e
    | .ok r' => applyOptions opts r'

/-- Go `rest.NewResponse`: apply all options to the zero value, then default
the status code to 200 (`http.StatusOK`) when it is still 0. -/
def NewResponse (opts : List ResponseOption) : Except String Response :=
  match applyOptions opts zeroResponse with
  | .error e => .error ("apply response option: " ++ e)
  | .ok r =>
    .ok (if r.statusCode = 0 then { r with statusCode := 200 } else r)

/-! ## Weighted resolver (`rest.WeightedResponse`) -/

/-- Go struct `rest.WeightedResponseEntry`. -/
structure WeightedResponseEntry where
  response : Response
  weight : Int
  deriving Repr, DecidableEq

/-- Go struct `rest.WeightedResponse`. The injected `numberGenerator` is not
stored; its draw is passed to `NextResponse` directly. `weights` holds the
cumulative sums built at construction. -/
structure WeightedResponse where
  responses : List Response
  weights : List Int
  weightTotal : Int
  deriving Repr, DecidableEq

/-- The construction loop inside `rest.NewWeightedResponse`: walks the entries
in order, rejecting any non-positive weight, accumulating the running total
and appending (cumulative weight, response) pairs. `acc` carries the partial
`(weightTotal, weights, responses)` triple. -/
def buildWeighted : List WeightedResponseEntry → Int → List Int → List Response →
    Except String (Int × List Int × List Response)
  | [], total, ws, rs => .ok (total, ws, rs)
  | entry :: entries, total, ws, rs =>
    if entry.weight ≤ 0 then
      .error "weight must be >= 1"
    else
      buildWeighted entries (total + entry.weight)
        (ws ++ [total + entry.weight]) (rs ++ [entry.response])

/-- Go `rest.NewWeightedResponse` (minus the irrelevant nil-generator default). -/
def NewWeightedResponse (entries : List WeightedResponseEntry) :
    Except String WeightedResponse :=
  if entries.length = 0 then
    .error "no weighted responses"
  else
    match buildWeighted entries 0 [] [] with
    | .error e => .error e
    | .ok (total, ws, rs) =>
      .ok { responses := rs, weights := ws, weightTotal := total }

/-- The scan loop inside `rest.WeightedResponse.NextResponse`: walk the
cumulative weights in order and return the response at the first index whose
cumulative weight exceeds the drawn value. Falling off the end is the Go
`panic`, modelled as `none`. -/
def scanWeighted : List Response → List Int → Int → Option Response
  | r :: rs, w :: ws, val => if val < w then some r else scanWeighted rs ws val
  | _, _, _ => none

/-- Go `rest.WeightedResponse.NextResponse`, with the generator's draw
`val := w.numGenerator.N(w.weightTotal)` supplied as the argument. -/
def WeightedResponse.NextResponse (w : WeightedResponse) (val : Int) :
    Option Response :=
  scanWeighted w.responses w.weights val

/-! ## Sequenced resolver (`rest.SequencedResponse`) -/

/-- Go constant `rest.SequenceBehaviorLoop` (`SequenceBehavior` is a string
type). -/
def SequenceBehaviorLoop : String := "loop"

/-- Go constant `rest.SequenceBehaviorRepeatLast`. -/
def SequenceBehaviorRepeatLast : String := "repeatLast"

/-- Go struct `rest.SequencedResponse`. The mutex `mu` has no data content;
it makes `NextResponse` one atomic step (see `concurrentRun`). -/
structure SequencedResponse where
  endBehavior : String
  sequence : List Response
  idx : Nat
  deriving Repr, DecidableEq

/-- Go `rest.NewSequencedResponse`: the behavior tag must be `loop` or
`repeatLast` (checked first) and the sequence non-empty; `idx` starts at the
Go zero value 0. -/
def NewSequencedResponse (endBehavior : String) (sequence : List Response) :
    Except String SequencedResponse :=
  if endBehavior = SequenceBehaviorLoop ∨ endBehavior = SequenceBehaviorRepeatLast then
    if sequence.length = 0 then
      .error "no sequence responses"
    else
      .ok { endBehavior := endBehavior, sequence := sequence, idx := 0 }
  else
    .error "unknown sequence end behavior"

/-- Go `rest.SequencedResponse.NextResponse`. The whole body runs under
`s.mu`; state passing models the in-place cursor update. The out-of-range
index panic of `s.sequence[s.idx]` is modelled as `none` (it is proved
unreachable from constructed states). -/
def SequencedResponse.NextResponse (s : SequencedResponse) :
    Option (Response × SequencedResponse) :=
  match s.sequence[s.idx]? with
  | none => none
  | some resp =>
    let len := s.sequence.length
    let idx' :=
      if s.idx < len - 1 then s.idx + 1
      else if len - 1 ≤ s.idx ∧ s.endBehavior = SequenceBehaviorLoop then
        (s.idx + 1) % len
      else s.idx
    some (resp, { s with idx := idx' })

/-- Run `n` successive `NextResponse` calls, collecting the emitted responses
in call order. `none` if any call would panic. -/
def runSequenced : Nat → SequencedResponse → Option (List Response)
  | 0, _ => some []
  | n + 1, s =>
    match s.NextResponse with
    | none => none
    | some (r, s') =>
      match runSequenced n s' with
      | none => none
      | some rs => some (r :: rs)

/-! ## Dispatcher (`rest.RegisterHandlers` request handler) -/

/-- The observable operations the registered handler performs on and around
the `http.ResponseWriter`, in the order it performs them. -/
inductive HandlerEvent where
  | resolve (r : Response)
  | sleep (d : Int)
  | setHeader (key value : String)
  | writeStatus (code : Int)
  | writeBody (body : List Nat)
  deriving Repr, DecidableEq

/-- The body of the closure registered by `rest.RegisterHandlers`, as the
trace of operations it performs when the endpoint's resolver yields `r`:
`resp := endpoint.Response()`; `if resp.delay != 0 { time.Sleep(resp.delay) }`;
`w.Header().Set` per header; `w.WriteHeader(resp.statusCode)`;
`w.Write(resp.body)`. -/
def handleRequest (r : Response) : List HandlerEvent :=
  [.resolve r]
    ++ (if r.delay ≠ 0 then [.sleep r.delay] else [])
    ++ r.headers.map (fun kv => .setHeader kv.1 kv.2)
    ++ [.writeStatus r.statusCode]
    ++ [.writeBody r.body]

/-- Is this event the resolver invocation? -/
def HandlerEvent.isResolve : HandlerEvent → Bool
  | .resolve _ => true
  | _ => false

/-- Is this event the delay sleep? -/
def HandlerEvent.isSleep : HandlerEvent → Bool
  | .sleep _ => true
  | _ => false

/-- Is this event a header set on the response writer? -/
def HandlerEvent.isSetHeader : HandlerEvent → Bool
  | .setHeader _ _ => true
  | _ => false

/-- Is this event the status-code write? -/
def HandlerEvent.isWriteStatus : HandlerEvent → Bool
  | .writeStatus _ => true
  | _ => false

/-- Is this event the body write? -/
def HandlerEvent.isWriteBody : HandlerEvent → Bool
  | .writeBody _ => true
  | _ => false

/-- Does this event touch the response writer at all (header, status, or
body)? -/
def HandlerEvent.isOutput : HandlerEvent → Bool
  | .setHeader _ _ => true
  | .writeStatus _ => true
  | .writeBody _ => true
  | _ => false

/-! ## Concurrent callers of a sequenced resolver

`SequencedResponse.NextResponse` holds `s.mu` for its whole body, so each
call is one atomic step; a concurrent execution of one call per thread is an
interleaving of those steps. `schedule` lists the thread identifiers in the
order the mutex admits them; each scheduled thread performs exactly one
`NextResponse` and the pair (thread, response it received) is recorded. -/
def concurrentRun (schedule : List α) (s : SequencedResponse) :
    Option (List (α × Response) × SequencedResponse) :=
  match schedule with
  | [] => some ([], s)
  | t :: ts =>
    match s.NextResponse with
    | none => none
    | some (r, s') =>
      match concurrentRun ts s' with
      | none => none
      | some (outs, sf) => some ((t, r) :: outs, sf)

/-- The cyclic stream of responses a `loop` resolver over `q` emits starting
at cursor `i`: the k-th emission is `q[(i + k) mod len]`. Used to describe
the collective output of concurrent callers. -/
def loopStream (q : List Response) (i n : Nat) : List Response :=
  (List.range n).map (fun k => q.getD ((i + k) % q.length) zeroResponse)

/-! ## Config translator (`config.convertSequencedToRest`) -/

/-- Go struct `config.SequencedResponseEntry`. The nested `config.Response`
is abstracted to a type parameter because its conversion (`toRest`) reads
files and parses durations; `convertSequencedToRest` only threads it through. -/
structure ConfigSequencedEntry (α : Type) where
  count : Option Int
  response : α

/-- Go struct `config.SequencedResponse` (the YAML-level one). -/
structure ConfigSequenced (α : Type) where
  endBehavior : String
  responses : List (ConfigSequencedEntry α)

/-- The sequence-building loop of `config.convertSequencedToRest`: each entry
contributes `count` copies (default 1, must be ≥ 1 when given) of its
converted response. -/
def buildSequence (toRest : α → Except String Response) :
    List (ConfigSequencedEntry α) → Except String (List Response)
  | [] => .ok []
  | entry :: entries =>
    let countRes : Except String Int :=
      match entry.count with
      | none => .ok 1
      | some c =>
        if c ≤ 0 then .error "sequence response count must be >= 1" else .ok c
    match countRes with
    | .error e => .error e
    | .ok count =>
      match toRest entry.response with
      | .error e => .error ("build sequence response: " ++ e)
      | .ok resp =>
        match buildSequence toRest entries with
        | .error e => .error e
        | .ok tailSeq => .ok (List.replicate count.toNat resp ++ tailSeq)

/-- Go `config.convertSequencedToRest`: build the flattened sequence, default
the end behavior to `repeatLast` when the YAML field is unset (empty string),
and hand off to `rest.NewSequencedResponse`. -/
def convertSequencedToRest (toRest : α → Except String Response)
    (cfg : ConfigSequenced α) : Except String SequencedResponse :=
  match buildSequence toRest cfg.responses with
  | .error e => .error e
  | .ok sequence =>
    let endBehavior :=
      if cfg.endBehavior = "" then SequenceBehaviorRepeatLast
      else cfg.endBehavior
    NewSequencedResponse endBehavior sequence

/-- Transcribed from the spec's words for the refinement comparison in C2:
the cumulative sums `C[i] = sum(weight[0..i])` of a weight list, in entry
order. -/
def specCumulative (weights : List Int) : List Int :=
  (List.range weights.length).map (fun i => ((weights.take (i + 1)).sum))

/-! ## Concrete fixtures used in witnesses -/

/-- A distinguishable concrete response (404, body [2]) for witnesses. -/
def respNotFound : Response := ⟨[], [2], 404, 0⟩

/-- A distinguishable concrete response (500, body [3]) for witnesses. -/
def respError : Response := ⟨[], [3], 500, 0⟩

/-- A concrete delayed response with one header, used in witnesses. -/
def respDelayed : Response := ⟨[("k", "v")], [7], 201, 5⟩

/-- A one-element `repeatLast` resolver state used in witnesses. -/
def seqOneRepeat : SequencedResponse :=
  ⟨SequenceBehaviorRepeatLast, [zeroResponse], 0⟩

/-- A two-element `loop` resolver state at the last index, used in witnesses. -/
def seqTwoLoopAtOne : SequencedResponse :=
  ⟨SequenceBehaviorLoop, [zeroResponse, respNotFound], 1⟩

/-! ## Helper lemmas -/

lemma buildWeighted_isOk_iff :
    ∀ (entries : List WeightedResponseEntry) (total : Int) (ws : List Int)
      (rs : List Response),
      (∃ out, buildWeighted entries total ws rs = .ok out) ↔
        ∀ e ∈ entries, 0 < e.weight := by
  intro entries
  induction entries with
  | nil =>
    intro total ws rs
    simp [buildWeighted]
  | cons e es ih =>
    intro total ws rs
    by_cases h : e.weight ≤ 0
    · simp only [buildWeighted, if_pos h]
      constructor
      · rintro ⟨out, hout⟩
        cases hout
      · intro hall
        exact absurd (hall e (by simp)) (by omega)
    · simp only [buildWeighted, if_neg h]
      rw [ih]
      constructor
      · intro hall
        intro x hx
        rcases List.mem_cons.mp hx with rfl | hx
        · omega
        · exact hall x hx
      · intro hall x hx
        exact hall x (List.mem_cons_of_mem _ hx)

/-- C5. Resolver construction validation: `NewWeightedResponse` succeeds
exactly when the entry list is non-empty and every weight is positive;
`NewSequencedResponse` succeeds exactly when the sequence is non-empty and
the end-behavior tag is `loop` or `repeatLast`. -/
theorem C5_constructor_validation :
    (∀ entries : List WeightedResponseEntry,
      (∃ w, NewWeightedResponse entries = .ok w) ↔
        (entries ≠ [] ∧ ∀ e ∈ entries, 0 < e.weight))
    ∧ (∀ (behavior : String) (sequence : List Response),
      (∃ s, NewSequencedResponse behavior sequence = .ok s) ↔
        (sequence ≠ [] ∧
          (behavior = SequenceBehaviorLoop ∨ behavior = SequenceBehaviorRepeatLast))) := by
  constructor
  · intro entries
    by_cases hnil : entries.length = 0
    · rw [List.length_eq_zero] at hnil
      subst hnil
      simp [NewWeightedResponse]
    · have hne : entries ≠ [] := by
        intro h
        subst h
        simp at hnil
      simp only [NewWeightedResponse, if_neg hnil, hne, ne_eq, not_false_iff, true_and]
      rw [← buildWeighted_isOk_iff entries 0 [] []]
      constructor
      · rintro ⟨w, hw⟩
        rcases hbw : buildWeighted entries 0 [] [] with e | ⟨total, ws, rs⟩
        · rw [hbw] at hw
          cases hw
        · exact ⟨(total, ws, rs), rfl⟩
      · rintro ⟨⟨total, ws, rs⟩, hout⟩
        rw [hout]
        exact ⟨_, rfl⟩
  · intro behavior sequence
    by_cases hb : behavior = SequenceBehaviorLoop ∨ behavior = SequenceBehaviorRepeatLast
    · by_cases hnil : sequence.length = 0
      · rw [List.length_eq_zero] at hnil
        subst hnil
        simp [NewSequencedResponse, hb]
      · have hne : sequence ≠ [] := by
          intro h
          subst h
          simp at hnil
        simp only [NewSequencedResponse, if_pos hb, if_neg hnil, hne, hb,
          ne_eq, not_false_iff, true_and, and_true]
        exact ⟨fun _ => trivial, fun _ => ⟨_, rfl⟩⟩
    · simp only [NewSequencedResponse, if_neg hb, hb, and_false, iff_false]
      rintro ⟨s, hs⟩
      cases hs

/-- C4. Response construction: with no options every field takes its default
(status 200, empty headers/body, zero delay); each status code outside
[100, 599] — in particular 600 and 99 — is rejected; a negative delay is
rejected; headers, body and an admissible delay are independently settable
while the omitted fields keep their defaults. -/
theorem C4_response_construction :
    NewResponse [] = .ok { headers := [], body := [], statusCode := 200, delay := 0 }
    ∧ (∀ st : Int, st < 100 ∨ st > 599 →
        ∃ e, NewResponse [WithResponseStatus st] = .error e)
    ∧ (∃ e, NewResponse [WithResponseStatus 600] = .error e)
    ∧ (∃ e, NewResponse [WithResponseStatus 99] = .error e)
    ∧ (∀ d : Int, d < 0 → ∃ e, NewResponse [WithResponseDelay d] = .error e)
    ∧ (∀ hs b, NewResponse [WithResponseHeaders hs, WithResponseBody b] =
        .ok { headers := hs, body := b, statusCode := 200, delay := 0 })
    ∧ (∀ d : Int, 0 ≤ d → ¬ d = 0 → NewResponse [WithResponseDelay d] =
        .ok { headers := [], body := [], statusCode := 200, delay := d }) := by
  refine ⟨rfl, ?_, ⟨_, rfl⟩, ⟨_, rfl⟩, ?_, ?_, ?_⟩
  · intro st hst
    simp only [NewResponse, applyOptions, WithResponseStatus, if_pos hst]
    exact ⟨_, rfl⟩
  · intro d hd
    simp only [NewResponse, applyOptions, WithResponseDelay, if_pos hd]
    exact ⟨_, rfl⟩
  · intro hs b
    rfl
  · intro d hd0 hdne
    have hneg : ¬ d < 0 := by omega
    simp only [NewResponse, applyOptions, WithResponseDelay, if_neg hneg, zeroResponse]
    simp

/-- Witness for C4 at concrete inputs: status 600 above and 50 below the
valid range are rejected, delay -3 is rejected, delay 7 is kept. -/
theorem C4_response_construction_witness :
    ((600 : Int) < 100 ∨ (600 : Int) > 599)
    ∧ (∃ e, NewResponse [WithResponseStatus 600] = .error e)
    ∧ ((-3 : Int) < 0)
    ∧ (∃ e, NewResponse [WithResponseDelay (-3)] = .error e)
    ∧ NewResponse [WithResponseDelay 7] =
        .ok { headers := [], body := [], statusCode := 200, delay := 7 } :=
  ⟨Or.inr (by norm_num),
   C4_response_construction.2.1 600 (Or.inr (by norm_num)),
   by norm_num,
   C4_response_construction.2.2.2.2.1 (-3) (by norm_num),
   C4_response_construction.2.2.2.2.2.2 7 (by norm_num) (by norm_num)⟩

lemma nextResponse_eq (s : SequencedResponse) (h : s.idx < s.sequence.length) :
    s.NextResponse = some (s.sequence[s.idx],
      { s with idx :=
          if s.idx < s.sequence.length - 1 then s.idx + 1
          else if s.sequence.length - 1 ≤ s.idx ∧ s.endBehavior = SequenceBehaviorLoop
          then (s.idx + 1) % s.sequence.length
          else s.idx }) := by
  unfold SequencedResponse.NextResponse
  rw [List.getElem?_eq_getElem h]

/-- C1. Sequenced transition semantics: a call at cursor `idx` returns
`sequence[idx]`; the cursor then moves to `idx + 1` when entries remain, and
at the last index wraps to 0 under `loop` and stays put under `repeatLast`.
The spec's two example traces hold for arbitrary distinct responses. -/
theorem C1_sequenced_transition :
    (∀ s : SequencedResponse, (h : s.idx < s.sequence.length) →
      (s.endBehavior = SequenceBehaviorLoop ∨ s.endBehavior = SequenceBehaviorRepeatLast) →
      s.NextResponse = some (s.sequence[s.idx],
        { s with idx :=
            if s.idx < s.sequence.length - 1 then s.idx + 1
            else if s.endBehavior = SequenceBehaviorLoop then 0
            else s.idx }))
    ∧ (∀ a b : Response,
        runSequenced 6 ⟨SequenceBehaviorLoop, [a, b], 0⟩ = some [a, b, a, b, a, b])
    ∧ (∀ a b c : Response,
        runSequenced 5 ⟨SequenceBehaviorRepeatLast, [a, b, c], 0⟩ =
          some [a, b, c, c, c]) := by
  refine ⟨?_, ?_, ?_⟩
  case refine_2 =>
    intro a b
    simp [runSequenced, SequencedResponse.NextResponse, SequenceBehaviorLoop]
  case refine_3 =>
    intro a b c
    simp [runSequenced, SequencedResponse.NextResponse, SequenceBehaviorLoop,
      SequenceBehaviorRepeatLast]
  intro s h hb
  rw [nextResponse_eq s h]
  by_cases hlt : s.idx < s.sequence.length - 1
  · simp [hlt]
  · have hidx : s.idx = s.sequence.length - 1 := by omega
    rcases hb with hb | hb
    · have hcond : s.sequence.length - 1 ≤ s.idx ∧ s.endBehavior = SequenceBehaviorLoop :=
        ⟨by omega, hb⟩
      rw [if_neg hlt, if_pos hcond, if_neg hlt, if_pos hb]
      have hlen : s.idx + 1 = s.sequence.length := by omega
      rw [hlen, Nat.mod_self]
    · have hne : s.endBehavior ≠ SequenceBehaviorLoop := by
        rw [hb]
        intro hcontra
        exact absurd hcontra (by decide)
      have hcond : ¬ (s.sequence.length - 1 ≤ s.idx ∧ s.endBehavior = SequenceBehaviorLoop) := by
        rintro ⟨-, hc⟩
        exact hne hc
      rw [if_neg hlt, if_neg hcond, if_neg hlt, if_neg hne]

/-- Witness for C1: a two-element `loop` resolver at the last index wraps its
cursor back to 0 while emitting the second element. -/
theorem C1_sequenced_transition_witness :
    seqTwoLoopAtOne.NextResponse =
      some (respNotFound, ⟨SequenceBehaviorLoop, [zeroResponse, respNotFound], 0⟩)
    ∧ runSequenced 6 ⟨SequenceBehaviorLoop, [zeroResponse, respNotFound], 0⟩ =
        some [zeroResponse, respNotFound, zeroResponse, respNotFound,
          zeroResponse, respNotFound] := by
  constructor
  · have h := C1_sequenced_transition.1 seqTwoLoopAtOne (by decide) (Or.inl rfl)
    rw [h]
    decide
  · exact C1_sequenced_transition.2.1 zeroResponse respNotFound

/-- C6. Cursor invariant: a constructed sequenced resolver starts with cursor
0, strictly inside its (non-empty) sequence, and every `NextResponse` call
from an in-range cursor succeeds (no index panic) and leaves the cursor
in-range over an unchanged sequence. -/
theorem C6_cursor_invariant :
    (∀ (behavior : String) (sequence : List Response) (s : SequencedResponse),
      NewSequencedResponse behavior sequence = .ok s →
      s.idx = 0 ∧ s.idx < s.sequence.length ∧ s.sequence = sequence)
    ∧ (∀ s : SequencedResponse, s.idx < s.sequence.length →
      ∃ r s', s.NextResponse = some (r, s') ∧ s'.idx < s'.sequence.length ∧
        s'.sequence = s.sequence ∧ s'.endBehavior = s.endBehavior) := by
  constructor
  · intro behavior sequence s hok
    unfold NewSequencedResponse at hok
    by_cases hb : behavior = SequenceBehaviorLoop ∨ behavior = SequenceBehaviorRepeatLast
    · rw [if_pos hb] at hok
      by_cases hnil : sequence.length = 0
      · rw [if_pos hnil] at hok
        cases hok
      · rw [if_neg hnil] at hok
        cases hok
        exact ⟨rfl, by simpa using Nat.pos_of_ne_zero hnil, rfl⟩
    · rw [if_neg hb] at hok
      cases hok
  · intro s h
    refine ⟨_, _, nextResponse_eq s h, ?_, rfl, rfl⟩
    by_cases hlt : s.idx < s.sequence.length - 1
    · simp only [if_pos hlt]
      omega
    · rw [if_neg hlt]
      by_cases hcond : s.sequence.length - 1 ≤ s.idx ∧ s.endBehavior = SequenceBehaviorLoop
      · rw [if_pos hcond]
        exact Nat.mod_lt _ (by omega)
      · rw [if_neg hcond]
        exact h

/-- Witness for C6: constructing a one-element `repeatLast` resolver and
stepping it once keeps the cursor at 0, inside the sequence. -/
theorem C6_cursor_invariant_witness :
    (NewSequencedResponse SequenceBehaviorRepeatLast [zeroResponse] = .ok seqOneRepeat)
    ∧ seqOneRepeat.idx = 0
    ∧ (∃ r s', seqOneRepeat.NextResponse = some (r, s') ∧
        s'.idx < s'.sequence.length ∧
        s'.sequence = seqOneRepeat.sequence ∧
        s'.endBehavior = seqOneRepeat.endBehavior) := by
  have hctor : NewSequencedResponse SequenceBehaviorRepeatLast [zeroResponse] =
      .ok seqOneRepeat := by
    simp [NewSequencedResponse, SequenceBehaviorLoop, SequenceBehaviorRepeatLast, seqOneRepeat]
  refine ⟨hctor, ?_, ?_⟩
  · exact (C6_cursor_invariant.1 SequenceBehaviorRepeatLast [zeroResponse] seqOneRepeat hctor).1
  · exact C6_cursor_invariant.2 seqOneRepeat (by decide)

/-- C7. Single-element equivalence: over a one-element sequence `[r]`, the
`loop` and `repeatLast` resolvers are observationally identical — every run
of n calls of either returns `r` each time. -/
theorem C7_single_element_equivalence :
    ∀ (r : Response) (n : Nat),
      runSequenced n ⟨SequenceBehaviorLoop, [r], 0⟩ = some (List.replicate n r)
      ∧ runSequenced n ⟨SequenceBehaviorRepeatLast, [r], 0⟩ = some (List.replicate n r) := by
  intro r n
  induction n with
  | zero => exact ⟨rfl, rfl⟩
  | succ n ih =>
    have hloop : (⟨SequenceBehaviorLoop, [r], 0⟩ : SequencedResponse).NextResponse =
        some (r, ⟨SequenceBehaviorLoop, [r], 0⟩) := by
      simp [SequencedResponse.NextResponse, SequenceBehaviorLoop]
    have hrep : (⟨SequenceBehaviorRepeatLast, [r], 0⟩ : SequencedResponse).NextResponse =
        some (r, ⟨SequenceBehaviorRepeatLast, [r], 0⟩) := by
      simp [SequencedResponse.NextResponse, SequenceBehaviorLoop, SequenceBehaviorRepeatLast]
    constructor
    · rw [runSequenced, hloop]
      simp [ih.1, List.replicate_succ]
    · rw [runSequenced, hrep]
      simp [ih.2, List.replicate_succ]

lemma specCumulative_nil : specCumulative [] = [] := rfl

lemma specCumulative_cons (w : Int) (ws : List Int) :
    specCumulative (w :: ws) = w :: (specCumulative ws).map (w + ·) := by
  unfold specCumulative
  rw [List.length_cons, List.range_succ_eq_map, List.map_cons, List.map_map,
    List.map_map]
  refine congrArg₂ _ ?_ ?_
  · simp
  · refine List.map_congr_left ?_
    intro i _
    simp [Function.comp, List.take_succ_cons]

lemma buildWeighted_spec :
    ∀ (entries : List WeightedResponseEntry) (total : Int) (ws : List Int)
      (rs : List Response),
      (∀ e ∈ entries, 0 < e.weight) →
      buildWeighted entries total ws rs =
        .ok (total + (entries.map (·.weight)).sum,
          ws ++ (specCumulative (entries.map (·.weight))).map (total + ·),
          rs ++ entries.map (·.response)) := by
  intro entries
  induction entries with
  | nil =>
    intro total ws rs _
    simp [buildWeighted, specCumulative]
  | cons e es ih =>
    intro total ws rs h
    have hw : ¬ e.weight ≤ 0 := by
      have := h e (by simp)
      omega
    rw [buildWeighted, if_neg hw,
      ih (total + e.weight) _ _ (fun x hx => h x (List.mem_cons_of_mem _ hx))]
    have hmap : (specCumulative (es.map (·.weight))).map ((total + e.weight) + ·) =
        ((specCumulative (es.map (·.weight))).map (e.weight + ·)).map (total + ·) := by
      rw [List.map_map]
      refine List.map_congr_left ?_
      intro v _
      simp [Function.comp]
      ring
    refine congrArg _ ?_
    simp only [Prod.mk.injEq, List.map_cons, List.sum_cons, specCumulative_cons]
    refine ⟨by ring, ?_, by simp⟩
    rw [hmap]
    simp [List.append_assoc]

lemma newWeighted_ok_inv (entries : List WeightedResponseEntry)
    (w : WeightedResponse) (hok : NewWeightedResponse entries = .ok w) :
    entries ≠ [] ∧ (∀ e ∈ entries, 0 < e.weight) ∧
    w.responses = entries.map (·.response) ∧
    w.weights = specCumulative (entries.map (·.weight)) ∧
    w.weightTotal = (entries.map (·.weight)).sum := by
  by_cases hnil : entries.length = 0
  · rw [NewWeightedResponse, if_pos hnil] at hok
    cases hok
  · have hne : entries ≠ [] := by
      intro h
      subst h
      simp at hnil
    have hpos : ∀ e ∈ entries, 0 < e.weight := by
      rw [← buildWeighted_isOk_iff entries 0 [] []]
      rw [NewWeightedResponse, if_neg hnil] at hok
      rcases hbw : buildWeighted entries 0 [] [] with e | ⟨total, ws, rs⟩
      · rw [hbw] at hok
        cases hok
      · exact ⟨_, rfl⟩
    rw [NewWeightedResponse, if_neg hnil,
      buildWeighted_spec entries 0 [] [] hpos] at hok
    cases hok
    refine ⟨hne, hpos, by simp, by simp, by simp⟩

lemma scanWeighted_first_match :
    ∀ (rs : List Response) (ws : List Int) (val : Int) (i : Nat)
      (hi : i < ws.length),
      rs.length = ws.length →
      val < ws.get ⟨i, hi⟩ →
      (∀ j (hj : j < i), ws.get ⟨j, Nat.lt_trans hj hi⟩ ≤ val) →
      scanWeighted rs ws val = rs[i]? := by
  intro rs
  induction rs with
  | nil =>
    intro ws val i hi hlen _ _
    rw [← hlen] at hi
    simp at hi
  | cons r rs ih =>
    intro ws val i hi hlen hlt hall
    cases ws with
    | nil => simp at hi
    | cons w ws =>
      cases i with
      | zero =>
        have : val < w := hlt
        simp [scanWeighted, this]
      | succ k =>
        have hwle : w ≤ val := hall 0 (Nat.succ_pos k)
        have hnlt : ¬ val < w := by omega
        rw [scanWeighted, if_neg hnlt, List.getElem?_cons_succ]
        refine ih ws val k (by simpa using hi) (by simpa using hlen)
          (by simpa using hlt) ?_
        intro j hj
        exact hall (j + 1) (Nat.succ_lt_succ hj)

lemma scanWeighted_isSome :
    ∀ (rs : List Response) (ws : List Int) (val : Int),
      rs.length = ws.length → (∃ x ∈ ws, val < x) →
      (scanWeighted rs ws val).isSome = true := by
  intro rs
  induction rs with
  | nil =>
    intro ws val hlen hx
    rcases hx with ⟨x, hmem, -⟩
    rw [List.eq_nil_of_length_eq_zero hlen.symm] at hmem
    simp at hmem
  | cons r rs ih =>
    intro ws val hlen hx
    cases ws with
    | nil =>
      rcases hx with ⟨x, hmem, -⟩
      simp at hmem
    | cons w ws =>
      by_cases hlt : val < w
      · simp [scanWeighted, hlt]
      · rw [scanWeighted, if_neg hlt]
        refine ih ws val (by simpa using hlen) ?_
        rcases hx with ⟨x, hmem, hvx⟩
        rcases List.mem_cons.mp hmem with rfl | hmem
        · omega
        · exact ⟨x, hmem, hvx⟩

lemma scanWeighted_none :
    ∀ (rs : List Response) (ws : List Int) (val : Int),
      (∀ x ∈ ws, x ≤ val) → scanWeighted rs ws val = none := by
  intro rs
  induction rs with
  | nil => intro ws val _; cases ws <;> rfl
  | cons r rs ih =>
    intro ws val hall
    cases ws with
    | nil => rfl
    | cons w ws =>
      have hnlt : ¬ val < w := by
        have := hall w (by simp)
        omega
      rw [scanWeighted, if_neg hnlt]
      exact ih ws val (fun x hx => hall x (List.mem_cons_of_mem _ hx))

lemma take_sum_le_sum (l : List Int) (n : Nat) (hpos : ∀ x ∈ l, 0 < x) :
    (l.take n).sum ≤ l.sum := by
  conv_rhs => rw [← List.take_append_drop n l]
  rw [List.sum_append]
  have : 0 ≤ (l.drop n).sum := by
    refine List.sum_nonneg ?_
    intro x hx
    exact le_of_lt (hpos x (List.drop_subset n l hx))
  omega

lemma sum_mem_specCumulative (l : List Int) (hne : l ≠ []) :
    l.sum ∈ specCumulative l := by
  have hlen : 0 < l.length := List.length_pos.mpr hne
  unfold specCumulative
  refine List.mem_map.mpr ⟨l.length - 1, List.mem_range.mpr (by omega), ?_⟩
  have h1 : l.length - 1 + 1 = l.length := by omega
  rw [h1, List.take_length]

lemma mem_specCumulative_le (l : List Int) (hpos : ∀ v ∈ l, 0 < v) :
    ∀ x ∈ specCumulative l, x ≤ l.sum := by
  intro x hx
  unfold specCumulative at hx
  rcases List.mem_map.mp hx with ⟨i, -, rfl⟩
  exact take_sum_le_sum l (i + 1) hpos

/-- C2. Weighted selection rule: construction stores the cumulative sums
`C[i] = sum(weight[0..i])` in entry order, with `weightTotal` their overall
sum, and `NextResponse` with draw `v` returns the response at the first
(smallest) index `i` with `v < C[i]`. For entries `[(x,3), (y,1)]` the total
is 4 and draws 0, 1, 2 give `x` while draw 3 gives `y` — fully deterministic
in the draw. -/
theorem C2_weighted_selection :
    (∀ (entries : List WeightedResponseEntry) (w : WeightedResponse),
      NewWeightedResponse entries = .ok w →
      w.responses = entries.map (·.response)
      ∧ w.weights = specCumulative (entries.map (·.weight))
      ∧ w.weightTotal = (entries.map (·.weight)).sum
      ∧ (∀ (val : Int) (i : Nat) (hi : i < w.weights.length),
          val < w.weights.get ⟨i, hi⟩ →
          (∀ j (hj : j < i), w.weights.get ⟨j, Nat.lt_trans hj hi⟩ ≤ val) →
          w.NextResponse val = w.responses[i]?))
    ∧ (∀ x y : Response,
        NewWeightedResponse [⟨x, 3⟩, ⟨y, 1⟩] =
          .ok { responses := [x, y], weights := [3, 4], weightTotal := 4 }
        ∧ WeightedResponse.NextResponse ⟨[x, y], [3, 4], 4⟩ 0 = some x
        ∧ WeightedResponse.NextResponse ⟨[x, y], [3, 4], 4⟩ 1 = some x
        ∧ WeightedResponse.NextResponse ⟨[x, y], [3, 4], 4⟩ 2 = some x
        ∧ WeightedResponse.NextResponse ⟨[x, y], [3, 4], 4⟩ 3 = some y) := by
  constructor
  · intro entries w hok
    obtain ⟨hne, hpos, hresp, hws, htot⟩ := newWeighted_ok_inv entries w hok
    refine ⟨hresp, hws, htot, ?_⟩
    intro val i hi hlt hall
    have hlen : w.responses.length = w.weights.length := by
      rw [hresp, hws]
      simp [specCumulative]
    exact scanWeighted_first_match w.responses w.weights val i hi hlen hlt hall
  · intro x y
    refine ⟨?_, ?_, ?_, ?_, ?_⟩
    · simp [NewWeightedResponse, buildWeighted]
    all_goals norm_num [WeightedResponse.NextResponse, scanWeighted]

/-- Witness for C2: for entries `[(zeroResponse,3), (respNotFound,1)]`,
draw 3 selects index 1 (the first index whose cumulative weight 4 exceeds 3),
yielding `respNotFound`. -/
theorem C2_weighted_selection_witness :
    (NewWeightedResponse [⟨zeroResponse, 3⟩, ⟨respNotFound, 1⟩] =
      .ok { responses := [zeroResponse, respNotFound], weights := [3, 4], weightTotal := 4 })
    ∧ WeightedResponse.NextResponse ⟨[zeroResponse, respNotFound], [3, 4], 4⟩ 3 =
        ([zeroResponse, respNotFound] : List Response)[1]? := by
  have hok := (C2_weighted_selection.2 zeroResponse respNotFound).1
  refine ⟨hok, ?_⟩
  refine (C2_weighted_selection.1 _ _ hok).2.2.2 3 1 (by decide) (by decide) ?_
  intro j hj
  interval_cases j
  simp

/-- C3. Weighted fall-through safety: for a validly constructed weighted
resolver, every draw `v` with `0 ≤ v < weightTotal` finds a matching entry
(the post-loop panic is unreachable), while a contract-violating draw
`v ≥ weightTotal` reaches the panic (modelled as `none`) instead of
returning a fabricated response. -/
theorem C3_weighted_fall_through :
    ∀ (entries : List WeightedResponseEntry) (w : WeightedResponse),
      NewWeightedResponse entries = .ok w →
      (∀ val : Int, 0 ≤ val → val < w.weightTotal →
        (w.NextResponse val).isSome = true)
      ∧ (∀ val : Int, w.weightTotal ≤ val → w.NextResponse val = none) := by
  intro entries w hok
  obtain ⟨hne, hpos, hresp, hws, htot⟩ := newWeighted_ok_inv entries w hok
  have hlen : w.responses.length = w.weights.length := by
    rw [hresp, hws]
    simp [specCumulative]
  have hposw : ∀ x ∈ entries.map (·.weight), 0 < x := by
    intro x hx
    rcases List.mem_map.mp hx with ⟨e, he, rfl⟩
    exact hpos e he
  have hmapne : entries.map (·.weight) ≠ [] := by
    simpa using hne
  constructor
  · intro val _ hval
    refine scanWeighted_isSome _ _ _ hlen ⟨w.weightTotal, ?_, hval⟩
    rw [hws, htot]
    exact sum_mem_specCumulative _ hmapne
  · intro val hval
    refine scanWeighted_none _ _ _ ?_
    intro x hx
    rw [hws] at hx
    have hxle := mem_specCumulative_le _ hposw x hx
    rw [← htot] at hxle
    omega

/-- Witness for C3: a single entry of weight 1 — draw 0 is served, while the
contract-violating draw 1 (the repository's own panic test) hits the panic. -/
theorem C3_weighted_fall_through_witness :
    (NewWeightedResponse [⟨zeroResponse, 1⟩] =
      .ok { responses := [zeroResponse], weights := [1], weightTotal := 1 })
    ∧ ((WeightedResponse.NextResponse ⟨[zeroResponse], [1], 1⟩ 0).isSome = true)
    ∧ WeightedResponse.NextResponse ⟨[zeroResponse], [1], 1⟩ 1 = none := by
  have hok : NewWeightedResponse [⟨zeroResponse, 1⟩] =
      .ok { responses := [zeroResponse], weights := [1], weightTotal := 1 } := by
    simp [NewWeightedResponse, buildWeighted]
  have h := C3_weighted_fall_through [⟨zeroResponse, 1⟩] ⟨[zeroResponse], [1], 1⟩ hok
  exact ⟨hok, h.1 0 (by norm_num) (by norm_num), h.2 1 (by norm_num)⟩

lemma pred_lt_pred_of_append (l₁ l₂ : List HandlerEvent) (p q : HandlerEvent → Bool)
    (hq : ∀ e ∈ l₁, q e = false) (hp : ∀ e ∈ l₂, p e = false) :
    ∀ (i j : Nat) (a b : HandlerEvent),
      (l₁ ++ l₂)[i]? = some a → (l₁ ++ l₂)[j]? = some b →
      p a = true → q b = true → i < j := by
  intro i j a b ha hb hpa hqb
  have hi1 : i < l₁.length := by
    by_contra hge
    push_neg at hge
    rw [List.getElem?_append_right hge] at ha
    rw [hp a (List.getElem?_mem ha)] at hpa
    cases hpa
  have hj1 : l₁.length ≤ j := by
    by_contra hlt
    push_neg at hlt
    rw [List.getElem?_append_left hlt] at hb
    rw [hq b (List.getElem?_mem hb)] at hqb
    cases hqb
  omega

/-- C8. Dispatcher ordering: for a request whose resolver yields `r`, the
handler trace resolves exactly one response and resolves it first; sleeps
exactly once iff the delay is non-zero, and any sleep precedes every
response-writer operation; every header set precedes the single status
write, which precedes the single body write. -/
theorem C8_dispatcher_ordering (r : Response) :
    ((handleRequest r).countP (·.isResolve) = 1
      ∧ (handleRequest r).head? = some (.resolve r))
    ∧ (handleRequest r).countP (·.isSleep) = (if r.delay ≠ 0 then 1 else 0)
    ∧ (handleRequest r).countP (·.isWriteStatus) = 1
    ∧ (handleRequest r).countP (·.isWriteBody) = 1
    ∧ (∀ (i j : Nat) (a b : HandlerEvent),
        (handleRequest r)[i]? = some a → (handleRequest r)[j]? = some b →
        a.isResolve = true → a.isResolve = b.isResolve → i = j)
    ∧ (∀ (i j : Nat) (a b : HandlerEvent),
        (handleRequest r)[i]? = some a → (handleRequest r)[j]? = some b →
        a.isSleep = true → b.isOutput = true → i < j)
    ∧ (∀ (i j : Nat) (a b : HandlerEvent),
        (handleRequest r)[i]? = some a → (handleRequest r)[j]? = some b →
        a.isSetHeader = true → b.isWriteStatus = true → i < j)
    ∧ (∀ (i j : Nat) (a b : HandlerEvent),
        (handleRequest r)[i]? = some a → (handleRequest r)[j]? = some b →
        a.isWriteStatus = true → b.isWriteBody = true → i < j) := by
  have hdelay : ∀ e ∈ (if r.delay ≠ 0 then [HandlerEvent.sleep r.delay] else []),
      e = HandlerEvent.sleep r.delay := by
    intro e he
    by_cases hd : r.delay ≠ 0
    · rw [if_pos hd] at he
      simpa using he
    · rw [if_neg hd] at he
      simp at he
  have hheader : ∀ e ∈ r.headers.map (fun kv => HandlerEvent.setHeader kv.1 kv.2),
      e.isSetHeader = true := by
    intro e he
    rcases List.mem_map.mp he with ⟨kv, -, rfl⟩
    rfl
  refine ⟨⟨?_, ?_⟩, ?_, ?_, ?_, ?_, ?_, ?_, ?_⟩
  · unfold handleRequest
    by_cases hd : r.delay ≠ 0 <;>
      simp [hd, List.countP_append, List.countP_map, List.countP_cons,
        HandlerEvent.isResolve, List.countP_eq_zero, Function.comp]
  · unfold handleRequest
    rfl
  · unfold handleRequest
    by_cases hd : r.delay ≠ 0 <;>
      simp [hd, List.countP_append, List.countP_map, List.countP_cons,
        HandlerEvent.isSleep, List.countP_eq_zero, Function.comp]
  · unfold handleRequest
    by_cases hd : r.delay ≠ 0 <;>
      simp [hd, List.countP_append, List.countP_map, List.countP_cons,
        HandlerEvent.isWriteStatus, List.countP_eq_zero, Function.comp]
  · unfold handleRequest
    by_cases hd : r.delay ≠ 0 <;>
      simp [hd, List.countP_append, List.countP_map, List.countP_cons,
        HandlerEvent.isWriteBody, List.countP_eq_zero, Function.comp]
  · -- the only event satisfying isResolve sits at index 0, so two resolve
    -- positions coincide
    intro i j a b ha hb hra hab
    have key : ∀ (k : Nat) (c : HandlerEvent), (handleRequest r)[k]? = some c →
        c.isResolve = true → k = 0 := by
      intro k c hc hrc
      cases k with
      | zero => rfl
      | succ m =>
        exfalso
        have hsplit : handleRequest r = [HandlerEvent.resolve r] ++
            ((if r.delay ≠ 0 then [HandlerEvent.sleep r.delay] else [])
              ++ r.headers.map (fun kv => HandlerEvent.setHeader kv.1 kv.2)
              ++ [HandlerEvent.writeStatus r.statusCode]
              ++ [HandlerEvent.writeBody r.body]) := by
          simp [handleRequest, List.append_assoc]
        rw [hsplit, List.getElem?_append_right (by simp)] at hc
        have hmem := List.getElem?_mem hc
        simp only [List.mem_append, List.mem_singleton, List.mem_map] at hmem
        rcases hmem with ((hm | hm) | hm) | hm
        · rw [hdelay c (by simpa using hm)] at hrc
          cases hrc
        · rcases hm with ⟨kv, -, rfl⟩
          cases hrc
        · subst hm
          cases hrc
        · subst hm
          cases hrc
    rw [key i a ha hra, key j b hb (by rw [← hab, hra])]
  · intro i j a b ha hb hpa hqb
    have hsplit : handleRequest r = ([HandlerEvent.resolve r] ++
        (if r.delay ≠ 0 then [HandlerEvent.sleep r.delay] else [])) ++
        (r.headers.map (fun kv => HandlerEvent.setHeader kv.1 kv.2)
          ++ [HandlerEvent.writeStatus r.statusCode]
          ++ [HandlerEvent.writeBody r.body]) := by
      simp [handleRequest, List.append_assoc]
    rw [hsplit] at ha hb
    refine pred_lt_pred_of_append _ _ _ _ ?_ ?_ i j a b ha hb hpa hqb
    · intro e he
      simp only [List.mem_append, List.mem_singleton] at he
      rcases he with he | he
      · subst he
        rfl
      · rw [hdelay e he]
        rfl
    · intro e he
      simp only [List.mem_append, List.mem_singleton] at he
      rcases he with (he | he) | he
      · rcases List.mem_map.mp he with ⟨kv, -, rfl⟩
        rfl
      · subst he
        rfl
      · subst he
        rfl
  · intro i j a b ha hb hpa hqb
    have hsplit : handleRequest r = ([HandlerEvent.resolve r] ++
        (if r.delay ≠ 0 then [HandlerEvent.sleep r.delay] else [])
        ++ r.headers.map (fun kv => HandlerEvent.setHeader kv.1 kv.2)) ++
        ([HandlerEvent.writeStatus r.statusCode]
          ++ [HandlerEvent.writeBody r.body]) := by
      simp [handleRequest, List.append_assoc]
    rw [hsplit] at ha hb
    refine pred_lt_pred_of_append _ _ _ _ ?_ ?_ i j a b ha hb hpa hqb
    · intro e he
      simp only [List.mem_append, List.mem_singleton] at he
      rcases he with (he | he) | he
      · subst he
        rfl
      · rw [hdelay e he]
        rfl
      · rcases List.mem_map.mp he with ⟨kv, -, rfl⟩
        rfl
    · intro e he
      simp only [List.mem_append, List.mem_singleton] at he
      rcases he with he | he
      · subst he
        rfl
      · subst he
        rfl
  · intro i j a b ha hb hpa hqb
    have hsplit : handleRequest r = ([HandlerEvent.resolve r] ++
        (if r.delay ≠ 0 then [HandlerEvent.sleep r.delay] else [])
        ++ r.headers.map (fun kv => HandlerEvent.setHeader kv.1 kv.2)
        ++ [HandlerEvent.writeStatus r.statusCode]) ++
        [HandlerEvent.writeBody r.body] := by
      simp [handleRequest, List.append_assoc]
    rw [hsplit] at ha hb
    refine pred_lt_pred_of_append _ _ _ _ ?_ ?_ i j a b ha hb hpa hqb
    · intro e he
      simp only [List.mem_append, List.mem_singleton] at he
      rcases he with ((he | he) | he) | he
      · subst he
        rfl
      · rw [hdelay e he]
        rfl
      · rcases List.mem_map.mp he with ⟨kv, -, rfl⟩
        rfl
      · subst he
        rfl
    · intro e he
      simp only [List.mem_singleton] at he
      subst he
      rfl

lemma newSequenced_ok_inv (behavior : String) (sequence : List Response)
    (s : SequencedResponse) (hok : NewSequencedResponse behavior sequence = .ok s) :
    s = ⟨behavior, sequence, 0⟩ ∧ sequence ≠ [] := by
  unfold NewSequencedResponse at hok
  by_cases hb : behavior = SequenceBehaviorLoop ∨ behavior = SequenceBehaviorRepeatLast
  · rw [if_pos hb] at hok
    by_cases hnil : sequence.length = 0
    · rw [if_pos hnil] at hok
      cases hok
    · rw [if_neg hnil] at hok
      cases hok
      exact ⟨rfl, fun h => hnil (by rw [h]; rfl)⟩
  · rw [if_neg hb] at hok
    cases hok

lemma loop_step (q : List Response) (i : Nat) (hi : i < q.length) :
    (⟨SequenceBehaviorLoop, q, i⟩ : SequencedResponse).NextResponse =
      some (q.getD i zeroResponse,
        ⟨SequenceBehaviorLoop, q, (i + 1) % q.length⟩) := by
  rw [nextResponse_eq _ hi]
  show some (q.get ⟨i, hi⟩, (⟨SequenceBehaviorLoop, q,
      if i < q.length - 1 then i + 1
      else if q.length - 1 ≤ i ∧ SequenceBehaviorLoop = SequenceBehaviorLoop
      then (i + 1) % q.length
      else i⟩ : SequencedResponse)) = _
  refine congrArg _ ?_
  refine congrArg₂ _ ?_ ?_
  · rw [List.get_eq_getElem]
    exact (List.getD_eq_getElem _ _ hi).symm
  · refine congrArg _ ?_
    by_cases hlt : i < q.length - 1
    · rw [if_pos hlt, Nat.mod_eq_of_lt (by omega)]
    · rw [if_neg hlt, if_pos ⟨by omega, rfl⟩]

lemma loopStream_succ (q : List Response) (i n : Nat) :
    loopStream q i (n + 1) =
      q.getD (i % q.length) zeroResponse :: loopStream q (i + 1) n := by
  unfold loopStream
  rw [List.range_succ_eq_map, List.map_cons, List.map_map]
  refine congrArg₂ _ (by simp) ?_
  refine List.map_congr_left ?_
  intro k _
  simp only [Function.comp]
  refine congrArg₂ _ ?_ rfl
  refine congrArg₂ _ ?_ rfl
  omega

lemma loopStream_mod (q : List Response) (i n : Nat) :
    loopStream q (i % q.length) n = loopStream q i n := by
  unfold loopStream
  refine List.map_congr_left ?_
  intro k _
  rw [Nat.mod_add_mod]

lemma loopStream_add (q : List Response) (i n₁ n₂ : Nat) :
    loopStream q i (n₁ + n₂) = loopStream q i n₁ ++ loopStream q (i + n₁) n₂ := by
  unfold loopStream
  rw [List.range_add, List.map_append, List.map_map]
  refine congrArg _ ?_
  refine List.map_congr_left ?_
  intro k _
  simp only [Function.comp]
  refine congrArg₂ _ ?_ rfl
  refine congrArg₂ _ ?_ rfl
  omega

lemma map_getD_range (q : List Response) :
    (List.range q.length).map (fun k => q.getD k zeroResponse) = q := by
  induction q with
  | nil => rfl
  | cons a q ih =>
    rw [List.length_cons, List.range_succ_eq_map, List.map_cons, List.map_map]
    refine congrArg₂ _ rfl ?_
    have hpt : List.map ((fun k => (a :: q).getD k zeroResponse) ∘ Nat.succ)
        (List.range q.length) =
        List.map (fun k => q.getD k zeroResponse) (List.range q.length) := by
      refine List.map_congr_left ?_
      intro k _
      rfl
    rw [hpt, ih]

lemma loopStream_cycle (q : List Response) (j : Nat) :
    loopStream q (j * q.length) q.length = q := by
  unfold loopStream
  have hpt : List.map (fun k => q.getD ((j * q.length + k) % q.length) zeroResponse)
      (List.range q.length) =
      List.map (fun k => q.getD k zeroResponse) (List.range q.length) := by
    refine List.map_congr_left ?_
    intro k hk
    rw [List.mem_range] at hk
    rw [Nat.mul_comm j q.length, Nat.mul_add_mod, Nat.mod_eq_of_lt hk]
  rw [hpt, map_getD_range]

lemma loopStream_count (q : List Response) (r : Response) :
    ∀ m : Nat, (loopStream q 0 (m * q.length)).count r = m * q.count r := by
  intro m
  induction m with
  | zero => simp [loopStream]
  | succ m ih =>
    have hsplit : (m + 1) * q.length = m * q.length + q.length := by ring
    rw [hsplit, loopStream_add, List.count_append, ih, Nat.zero_add,
      loopStream_cycle q m]
    ring

lemma concurrentRun_loop {T : Type} (q : List Response) :
    ∀ (schedule : List T) (i : Nat), i < q.length →
      ∃ outs s', concurrentRun schedule ⟨SequenceBehaviorLoop, q, i⟩ = some (outs, s')
        ∧ outs.map Prod.fst = schedule
        ∧ outs.map Prod.snd = loopStream q i schedule.length := by
  intro schedule
  induction schedule with
  | nil =>
    intro i _
    exact ⟨[], _, rfl, rfl, rfl⟩
  | cons t ts ih =>
    intro i hi
    have hlen : 0 < q.length := by omega
    obtain ⟨outs, s', hrun, hfst, hsnd⟩ := ih ((i + 1) % q.length) (Nat.mod_lt _ hlen)
    refine ⟨(t, q.getD i zeroResponse) :: outs, s', ?_, ?_, ?_⟩
    · rw [concurrentRun, loop_step q i hi]
      simp [hrun]
    · rw [List.map_cons, hfst]
    · rw [List.map_cons, hsnd, List.length_cons, loopStream_succ,
        Nat.mod_eq_of_lt hi, loopStream_mod]

/-- C9. Sequenced atomicity under concurrency: each `NextResponse` call is a
single atomic step (the mutex is held for the whole read-compute-write), so
for any admission order of N concurrent callers on a `loop` resolver whose
sequence length divides N, the collective outputs are exactly N responses
whose multiset is N/L full cycles — every caller is served once and each
sequence element occurs N/L times. The resolver lock is released before the
handler's delay: the resolve event strictly precedes any sleep event. -/
theorem C9_concurrent_cycles :
    (∀ (T : Type) (schedule : List T) (sequence : List Response)
        (s : SequencedResponse) (m : Nat),
      NewSequencedResponse SequenceBehaviorLoop sequence = .ok s →
      schedule.length = m * sequence.length →
      ∃ outs s', concurrentRun schedule s = some (outs, s')
        ∧ outs.length = schedule.length
        ∧ outs.map Prod.fst = schedule
        ∧ (∀ r : Response, (outs.map Prod.snd).count r = m * sequence.count r))
    ∧ (∀ (r : Response) (i j : Nat) (a b : HandlerEvent),
        (handleRequest r)[i]? = some a → (handleRequest r)[j]? = some b →
        a.isResolve = true → b.isSleep = true → i < j) := by
  constructor
  · intro T schedule sequence s m hok hlen
    obtain ⟨rfl, hne⟩ := newSequenced_ok_inv _ _ _ hok
    have hlenpos : 0 < sequence.length := List.length_pos.mpr hne
    obtain ⟨outs, s', hrun, hfst, hsnd⟩ :=
      concurrentRun_loop sequence schedule 0 hlenpos
    refine ⟨outs, s', hrun, ?_, hfst, ?_⟩
    · rw [← hfst, List.length_map]
    · intro r
      rw [hsnd, hlen, loopStream_count]
  · intro r i j a b ha hb hpa hqb
    have hsplit : handleRequest r = [HandlerEvent.resolve r] ++
        ((if r.delay ≠ 0 then [HandlerEvent.sleep r.delay] else [])
          ++ r.headers.map (fun kv => HandlerEvent.setHeader kv.1 kv.2)
          ++ [HandlerEvent.writeStatus r.statusCode]
          ++ [HandlerEvent.writeBody r.body]) := by
      simp [handleRequest, List.append_assoc]
    rw [hsplit] at ha hb
    refine pred_lt_pred_of_append _ _ _ _ ?_ ?_ i j a b ha hb hpa hqb
    · intro e he
      simp only [List.mem_singleton] at he
      subst he
      rfl
    · intro e he
      simp only [List.mem_append, List.mem_singleton] at he
      rcases he with ((he | he) | he) | he
      · by_cases hd : r.delay ≠ 0
        · rw [if_pos hd] at he
          simp only [List.mem_singleton] at he
          subst he
          rfl
        · rw [if_neg hd] at he
          simp at he
      · rcases List.mem_map.mp he with ⟨kv, -, rfl⟩
        rfl
      · subst he
        rfl
      · subst he
        rfl

/-- Witness for C9: four callers on the two-element loop `[zeroResponse,
respNotFound]` collectively receive two full cycles, and on the delayed
response the resolve event (index 0) precedes the sleep event (index 1). -/
theorem C9_concurrent_cycles_witness :
    (NewSequencedResponse SequenceBehaviorLoop [zeroResponse, respNotFound] =
      .ok ⟨SequenceBehaviorLoop, [zeroResponse, respNotFound], 0⟩)
    ∧ ([10, 20, 30, 40] : List Nat).length = 2 * ([zeroResponse, respNotFound] : List Response).length
    ∧ (∃ outs s', concurrentRun [10, 20, 30, 40]
          (⟨SequenceBehaviorLoop, [zeroResponse, respNotFound], 0⟩ : SequencedResponse) =
          some (outs, s')
        ∧ outs.length = 4
        ∧ outs.map Prod.fst = [10, 20, 30, 40]
        ∧ (∀ r : Response, (outs.map Prod.snd).count r =
            2 * ([zeroResponse, respNotFound] : List Response).count r))
    ∧ ((handleRequest respDelayed)[0]? = some (.resolve respDelayed))
    ∧ ((handleRequest respDelayed)[1]? = some (.sleep 5))
    ∧ (0 : Nat) < 1 := by
  have hok : NewSequencedResponse SequenceBehaviorLoop [zeroResponse, respNotFound] =
      .ok ⟨SequenceBehaviorLoop, [zeroResponse, respNotFound], 0⟩ := by
    simp [NewSequencedResponse, SequenceBehaviorLoop, SequenceBehaviorRepeatLast]
  have h0 : (handleRequest respDelayed)[0]? = some (.resolve respDelayed) := by decide
  have h1 : (handleRequest respDelayed)[1]? = some (.sleep 5) := by decide
  obtain ⟨outs, s', hrun, hl, hf, hc⟩ :=
    C9_concurrent_cycles.1 Nat [10, 20, 30, 40] [zeroResponse, respNotFound] _ 2 hok (by decide)
  exact ⟨hok, by decide, ⟨outs, s', hrun, hl, hf, hc⟩,
    h0, h1, C9_concurrent_cycles.2 respDelayed 0 1 _ _ h0 h1 rfl rfl⟩

/-- Witness for C8 on a concrete delayed response: the sleep (index 1)
precedes the header set (index 2), and the status write (index 3) precedes
the body write (index 4). -/
theorem C8_dispatcher_ordering_witness :
    ((handleRequest respDelayed)[1]? = some (.sleep 5))
    ∧ ((handleRequest respDelayed)[2]? = some (.setHeader "k" "v"))
    ∧ (1 : Nat) < 2
    ∧ ((handleRequest respDelayed)[3]? = some (.writeStatus 201))
    ∧ ((handleRequest respDelayed)[4]? = some (.writeBody [7]))
    ∧ (3 : Nat) < 4 := by
  have h1 : (handleRequest respDelayed)[1]? = some (.sleep 5) := by decide
  have h2 : (handleRequest respDelayed)[2]? = some (.setHeader "k" "v") := by decide
  have h3 : (handleRequest respDelayed)[3]? = some (.writeStatus 201) := by decide
  have h4 : (handleRequest respDelayed)[4]? = some (.writeBody [7]) := by decide
  refine ⟨h1, h2, ?_, h3, h4, ?_⟩
  · exact (C8_dispatcher_ordering respDelayed).2.2.2.2.2.1 1 2 _ _ h1 h2 rfl rfl
  · exact (C8_dispatcher_ordering respDelayed).2.2.2.2.2.2.2 3 4 _ _ h3 h4 rfl rfl

/-- C10. Default end behavior: when the configuration's `endBehavior` field
is unset (empty string), the config translator builds the sequenced resolver
with end-behavior `repeatLast`, not `loop`. -/
theorem C10_default_end_behavior :
    ∀ (α : Type) (toRest : α → Except String Response) (cfg : ConfigSequenced α)
      (s : SequencedResponse),
      cfg.endBehavior = "" →
      convertSequencedToRest toRest cfg = .ok s →
      s.endBehavior = SequenceBehaviorRepeatLast := by
  intro α toRest cfg s hunset hok
  rcases hbs : buildSequence toRest cfg.responses with e | seq
  · rw [convertSequencedToRest, hbs] at hok
    cases hok
  · simp only [convertSequencedToRest, hbs, hunset, if_pos] at hok
    obtain ⟨rfl, -⟩ := newSequenced_ok_inv _ _ _ hok
    rfl

/-- Witness for C10: a one-entry sequence config with unset `endBehavior`
converts to a resolver whose end behavior is `repeatLast`. -/
theorem C10_default_end_behavior_witness :
    (⟨"", [⟨none, ()⟩]⟩ : ConfigSequenced Unit).endBehavior = ""
    ∧ convertSequencedToRest (fun _ : Unit => .ok zeroResponse)
        ⟨"", [⟨none, ()⟩]⟩ = .ok seqOneRepeat
    ∧ seqOneRepeat.endBehavior = SequenceBehaviorRepeatLast := by
  have hconv : convertSequencedToRest (fun _ : Unit => .ok zeroResponse)
      ⟨"", [⟨none, ()⟩]⟩ = .ok seqOneRepeat := by
    simp [convertSequencedToRest, buildSequence, NewSequencedResponse, seqOneRepeat,
      SequenceBehaviorLoop, SequenceBehaviorRepeatLast]
  exact ⟨rfl, hconv, C10_default_end_behavior Unit _ _ _ rfl hconv⟩

end MockServer
